import Mathlib

/-
  Verification development for t3.c, a tee-like tool that captures the
  stdout and stderr streams of a command, timestamps each line in two
  forked tap workers, and merges the two message streams in the parent.

  The definitions below are shallow embeddings of the functions of
  src/t3.c; each definition names the C function (and lines) it embeds.
  Machine integers are modelled as Int with explicit wrapping where the
  C performs a narrowing conversion; C division on longs truncates
  toward zero and is modelled with Int.tdiv.
-/

namespace T3

/-- Model of struct timespec (tv_sec, tv_nsec as C long values). -/
structure Timespec where
  sec : Int
  nsec : Int
deriving DecidableEq, Repr

/-- Model of struct payload (t3.c lines 74-77): a capture timestamp plus
the line text. The C text field is a fixed char[4096] buffer holding a
NUL-terminated string; we model the string contents as a list of
characters (the bytes before the terminating NUL). -/
structure Payload where
  timestamp : Timespec
  text : List Char
deriving DecidableEq, Repr

/-- BUFFER_SIZE from t3.c line 39: the size of the text buffer. -/
def BUFFER_SIZE : Nat := 4096

/-- Size in bytes of struct payload on the 64-bit platform the code
targets: struct timespec is two 8-byte longs, the text buffer is
BUFFER_SIZE bytes, so sizeof(struct payload) = 16 + 4096 = 4112. -/
def PAYLOAD_SIZE : Nat := 4112

/-- EXIT_FAILURE from stdlib.h. -/
def EXIT_FAILURE : Nat := 1

/-- The newline delimiter scanned for by timestamp_and_send. -/
def NL : Char := '\n'

/-- Wrap of an Int into the range of a 32-bit signed int, modelling the
narrowing conversion from long to int in the return of
timespec_ms_delta (gcc wraps modulo two to the 32). -/
def toInt32 (x : Int) : Int := (x + 2147483648) % 4294967296 - 2147483648

/-- timespec_cmp (t3.c lines 243-253): lexicographic three-way compare
of two timespec values. -/
def timespec_cmp (a b : Timespec) : Int :=
  if a.sec < b.sec then -1
  else if b.sec < a.sec then 1
  else if a.nsec < b.nsec then -1
  else if b.nsec < a.nsec then 1
  else 0

/-- timespec_ms_delta (t3.c lines 255-259): millisecond delta computed
as (a.sec - b.sec) * 1000 + (a.nsec - b.nsec) / 1000000 in C long
arithmetic (division truncating toward zero), with the result narrowed
to int. -/
def timespec_ms_delta (a b : Timespec) : Int :=
  toInt32 ((a.sec - b.sec) * 1000 + Int.tdiv (a.nsec - b.nsec) 1000000)

/-- Spec-side notion used by the claims: timestamp a is strictly
earlier than timestamp b. -/
def ts_earlier (a b : Timespec) : Prop :=
  a.sec < b.sec ∨ (a.sec = b.sec ∧ a.nsec < b.nsec)

/-- Exact age of a message in nanoseconds: the difference now minus
capture time, without any rounding. -/
def age_ns (now ts : Timespec) : Int :=
  (now.sec - ts.sec) * 1000000000 + (now.nsec - ts.nsec)

/-
  Merge Engine state (t3.c main, lines 607-757).  The parent keeps one
  FIFO queue per stream plus the poll file descriptor state: a pipe is
  being polled while its fd has not been set to -1, and num_open_fds
  counts the pipes still open.  Channel Liveness State Open/Closed of
  the spec corresponds to the per-stream open flag below; the release
  policy of the code, however, only ever consults the total count
  num_open_fds.
-/

/-- Parent-side merge state: the two stream queues (front of list =
head of queue) and the per-channel open flag (pfds fd not yet -1). -/
structure MergeState where
  stdoutQ : List Payload
  stderrQ : List Payload
  stdoutOpen : Bool
  stderrOpen : Bool
deriving DecidableEq, Repr

/-- num_open_fds (t3.c line 608, decremented at lines 659 and 678):
the number of message pipes still open. -/
def numOpenFds (st : MergeState) : Nat :=
  (if st.stdoutOpen then 1 else 0) + (if st.stderrOpen then 1 else 0)

/-- Release eligibility of the head of one queue, from t3.c lines
700-728: while num_open_fds > 0 the head is ready only when
timespec_ms_delta(current_time, head.timestamp) >= 100; once
num_open_fds == 0 the head is ready irrespective of age. -/
def readyHead (st : MergeState) (now : Timespec) (q : List Payload) : Option Payload :=
  match q.head? with
  | none => none
  | some m =>
    if 0 < numOpenFds st then
      if 100 ≤ timespec_ms_delta now m.timestamp then some m else none
    else
      some m

/-- Which release the drain loop body performs. -/
inductive DrainAction where
  | releaseStdout
  | releaseStderr
  | stop
deriving DecidableEq, Repr

/-- One iteration of the drain loop body (t3.c lines 697-755): compute
the ready heads, then release the stdout head when both are ready and
timespec_cmp(stdout, stderr) <= 0, the stderr head when both are ready
otherwise, the single ready head when only one is ready, and break out
of the drain loop when neither is ready. -/
def drainStep (now : Timespec) (st : MergeState) : DrainAction :=
  match readyHead st now st.stdoutQ, readyHead st now st.stderrQ with
  | some m0, some m1 =>
    if timespec_cmp m0.timestamp m1.timestamp ≤ 0 then .releaseStdout
    else .releaseStderr
  | some _, none => .releaseStdout
  | none, some _ => .releaseStderr
  | none, none => .stop

/-- The full drain pass (t3.c lines 692-756): repeatedly run drainStep
with the single current_time captured at line 686 before the pass,
removing each released head, until the step stops or the fuel (an upper
bound on the total queue length) runs out.  Returns the released
messages in order, tagged true for the stdout side. -/
def drainPass (now : Timespec) : Nat → MergeState → List (Bool × Payload) × MergeState
  | 0, st => ([], st)
  | fuel + 1, st =>
    match drainStep now st with
    | .releaseStdout =>
      match st.stdoutQ with
      | [] => ([], st)
      | m :: rest =>
        let r := drainPass now fuel { st with stdoutQ := rest }
        ((true, m) :: r.1, r.2)
    | .releaseStderr =>
      match st.stderrQ with
      | [] => ([], st)
      | m :: rest =>
        let r := drainPass now fuel { st with stderrQ := rest }
        ((false, m) :: r.1, r.2)
    | .stop => ([], st)

/-
  Stream Tap Worker: the line scanner of timestamp_and_send
  (t3.c lines 199-240).  The worker reads chunks; per chunk it captures
  one timestamp, then scans the chunk byte by byte keeping a line
  accumulator (line_length): once the accumulator holds
  BUFFER_SIZE - 1 bytes it force-emits the accumulated (truncated)
  message and resets; a newline emits the accumulated message (without
  the newline) and resets; any other byte is appended.  On end of input
  a nonempty accumulator is emitted as a final message carrying the
  timestamp of the last chunk read.
-/

/-- Scan of the bytes of one chunk (the inner while loop, t3.c lines
212-229).  First argument after ts is the line accumulator; returns
the messages emitted by this chunk and the accumulator left over. -/
def scan_bytes (ts : Timespec) : List Char → List Char → List Payload × List Char
  | acc, [] => ([], acc)
  | acc, b :: rest =>
    let st := if BUFFER_SIZE - 1 ≤ acc.length
      then (([⟨ts, acc⟩] : List Payload), ([] : List Char))
      else (([] : List Payload), acc)
    if b = NL then
      let r := scan_bytes ts [] rest
      (st.1 ++ ⟨ts, st.2⟩ :: r.1, r.2)
    else
      let r := scan_bytes ts (st.2 ++ [b]) rest
      (st.1 ++ r.1, r.2)

/-- Scan of a sequence of chunks (the outer read loop, t3.c lines
199-230), threading the line accumulator across chunks; each chunk
carries the timestamp captured when its read completed. -/
def scan_chunks : List Char → List (Timespec × List Char) → List Payload × List Char
  | acc, [] => ([], acc)
  | acc, (ts, bs) :: rest =>
    let r1 := scan_bytes ts acc bs
    let r2 := scan_chunks r1.2 rest
    (r1.1 ++ r2.1, r2.2)

/-- Timestamp of the last chunk read, which is what msg_payload holds
when the final unterminated tail is flushed (t3.c lines 237-240); the
zero value is what the field holds if no chunk was ever read. -/
def last_ts : List (Timespec × List Char) → Timespec
  | [] => ⟨0, 0⟩
  | [(ts, _)] => ts
  | _ :: rest => last_ts rest

/-- The data messages sent by the relaying loop of timestamp_and_send
(t3.c lines 199-240), including the final flush of an unterminated
tail line. -/
def timestamp_and_send_msgs (chunks : List (Timespec × List Char)) : List Payload :=
  let r := scan_chunks [] chunks
  if r.2 = [] then r.1 else r.1 ++ [⟨last_ts chunks, r.2⟩]

/-- Texts of a list of messages. -/
def texts (ps : List Payload) : List (List Char) := ps.map Payload.text

/-- Spec-side: lines joined back into a byte stream, each line followed
by its newline delimiter. -/
def join_lines : List (List Char) → List Char
  | [] => []
  | l :: ls => l ++ NL :: join_lines ls

/-
  Framed Pipe Channel sender: send_msg_payload (t3.c lines 119-160).
  The channel is modelled by a trace of results of the successive
  write(2) calls: WriteRes.ok n means the call accepted n bytes,
  WriteRes.eagain a -1 return with errno EAGAIN, WriteRes.err a -1
  return with any other errno.  Each model write call records the byte
  offset into the message it was given and the length requested; the
  offset of the resume call is written * sizeof(struct payload) because
  the C computes the pointer msg_payload + written, pointer arithmetic
  that scales by the element size.
-/

/-- Result of one write(2) call on the message pipe. -/
inductive WriteRes where
  | ok (n : Nat)
  | eagain
  | err
deriving DecidableEq, Repr

/-- How send_msg_payload returned. -/
inductive SendOutcome where
  /-- The while loop condition written < sizeof became false with the
  whole envelope counted as written. -/
  | completeExit
  /-- The initial write returned -1.  The loop condition
  written < sizeof(*msg_payload) at t3.c line 126 compares an ssize_t
  against a size_t, converting -1 to SIZE_MAX, so the loop is skipped
  and the function returns at once: no retry, no error log (the
  written == -1 branch at lines 127-135 is unreachable). -/
  | silentNegReturn
  /-- The unconditional break after the inner EAGAIN retry loop
  (t3.c line 151). -/
  | breakAfterRetry
  /-- The perror and break at t3.c lines 153-154: a resume write
  inside the loop failed with an errno other than EAGAIN. -/
  | errorBreak
  /-- The model trace was exhausted before the loop ended. -/
  | noTrace
deriving DecidableEq, Repr

/-- Result of a run of send_msg_payload: the (offset, length) of every
write call issued, the (offset, count) of bytes each successful call
transmitted, how the function returned, whether perror ran, and the
exit the function performed, which is always none because
send_msg_payload contains no exit() call on any path. -/
structure SendResult where
  calls : List (Nat × Nat)
  sent : List (Nat × Nat)
  outcome : SendOutcome
  exited : Option Nat
  logged : Bool
deriving DecidableEq, Repr

/-- Control point inside the send loop.  The loop is entered only
after a short initial write of 0 to sizeof-1 bytes (the unsigned
comparison at t3.c line 126 excludes -1), and written never becomes
-1 inside it, so the loop has exactly these two live control points;
the written == -1 branch at lines 127-135 is dead code and has no
phase. -/
inductive SPhase where
  /-- written = w with 0 <= w < sizeof: issue the resume write at the
  pointer msg_payload + written, which is byte offset
  w * sizeof(struct payload), with length sizeof - w (t3.c lines
  140-141). -/
  | havePartial (w : Nat)
  /-- The inner retry loop after the resume write returned EAGAIN
  (t3.c lines 146-150); once a retry returns anything other than
  EAGAIN the code breaks out of the whole send loop (line 151). -/
  | drainEagain (w : Nat)
deriving DecidableEq, Repr

/-- The send loop of send_msg_payload (t3.c lines 126-159), one trace
entry consumed per write call. -/
def sendStep : List WriteRes → SPhase → List (Nat × Nat) → List (Nat × Nat) → SendResult
  | [], _, calls, sent => ⟨calls, sent, .noTrace, none, false⟩
  | r :: rest, .havePartial w, calls, sent =>
    let off := w * PAYLOAD_SIZE
    let len := PAYLOAD_SIZE - w
    let calls := calls ++ [(off, len)]
    match r with
    | .ok m =>
      if PAYLOAD_SIZE ≤ w + m then ⟨calls, sent ++ [(off, m)], .completeExit, none, false⟩
      else sendStep rest (.havePartial (w + m)) calls (sent ++ [(off, m)])
    | .eagain => sendStep rest (.drainEagain w) calls sent
    | .err => ⟨calls, sent, .errorBreak, none, true⟩
  | r :: rest, .drainEagain w, calls, sent =>
    let off := w * PAYLOAD_SIZE
    let len := PAYLOAD_SIZE - w
    let calls := calls ++ [(off, len)]
    match r with
    | .ok m => ⟨calls, sent ++ [(off, m)], .breakAfterRetry, none, false⟩
    | .eagain => sendStep rest (.drainEagain w) calls sent
    | .err => ⟨calls, sent, .breakAfterRetry, none, false⟩

/-- send_msg_payload (t3.c lines 119-160) as a function of the channel
trace.  The initial write at line 125 transmits from offset 0.  The
loop condition written < sizeof(*msg_payload) at line 126 converts the
ssize_t written to size_t, so a -1 initial write (EAGAIN or any other
errno) compares as SIZE_MAX, skips the loop and returns silently with
no retry and no log; the loop runs only after a short write of 0 to
sizeof-1 bytes, and within it written stays nonnegative. -/
def send_msg_payload (trace : List WriteRes) : SendResult :=
  match trace with
  | [] => ⟨[], [], .noTrace, none, false⟩
  | r :: rest =>
    match r with
    | .ok n =>
      if PAYLOAD_SIZE ≤ n then ⟨[(0, PAYLOAD_SIZE)], [(0, n)], .completeExit, none, false⟩
      else sendStep rest (.havePartial n) [(0, PAYLOAD_SIZE)] [(0, n)]
    | .eagain => ⟨[(0, PAYLOAD_SIZE)], [], .silentNegReturn, none, false⟩
    | .err => ⟨[(0, PAYLOAD_SIZE)], [], .silentNegReturn, none, false⟩

/-- The relaying loop sends each scanned message in turn with
send_msg_payload; the loop never inspects a result (the C function
returns void and contains no exit), so scanning continues regardless
of channel errors.  One channel trace is consumed per message. -/
def sendAll : List Payload → List (List WriteRes) → List (Payload × SendResult)
  | [], _ => []
  | m :: ms, trs => (m, send_msg_payload (trs.headD [])) :: sendAll ms trs.tail

/-- A full relaying run of timestamp_and_send over its input chunks,
pairing every emitted message with the send result on its channel
trace. -/
def relay_run (chunks : List (Timespec × List Char))
    (trs : List (List WriteRes)) : List (Payload × SendResult) :=
  sendAll (timestamp_and_send_msgs chunks) trs

/-
  Readiness handshake (worker side t3.c lines 186-197, parent side
  lines 518-571).
-/

/-- The Readiness Sentinel Message built at t3.c lines 188-192: zero
timestamp and text "<stream> started". -/
def sentinel_payload (pfx : String) : Payload :=
  ⟨⟨0, 0⟩, (pfx ++ " started").toList⟩

/-- Conversion of a 64-bit signed value to size_t, as the usual
arithmetic conversions perform when an ssize_t is compared against a
size_t operand such as sizeof: reduction modulo two to the 64. -/
def to_size_t (x : Int) : Nat := (x % 18446744073709551616).toNat

/-- The startup check at t3.c lines 193-197: the worker exits with
EXIT_FAILURE when written < sizeof(msg_payload).  The comparison
converts the ssize_t written to size_t, so a -1 error return compares
as SIZE_MAX and does not trip the check: only an actual short write of
0 to sizeof-1 bytes makes the worker exit; some code means the worker
exits with that code, none means it continues into the read loop. -/
def worker_startup_check (written : Int) : Option Nat :=
  if to_size_t written < PAYLOAD_SIZE then some EXIT_FAILURE else none

/-- The complete sequence of messages a tap worker writes to its
message pipe: the sentinel first (t3.c lines 186-197), then the data
messages of the relaying loop. -/
def timestamp_and_send_output (pfx : String)
    (chunks : List (Timespec × List Char)) : List Payload :=
  sentinel_payload pfx :: timestamp_and_send_msgs chunks

/-- The parent-side readiness check (t3.c lines 518-534 for stdout,
554-569 for stderr) applied to the first message received from a
worker: a nonzero timestamp or a text other than "<stream> started"
makes the parent return EXIT_FAILURE; on success the handshake has
consumed the first message and the merge loop sees only the rest. -/
def parent_handshake (pfx : String) (m : Payload) (rest : List Payload) :
    Except Nat (List Payload) :=
  if m.timestamp.sec ≠ 0 ∨ m.timestamp.nsec ≠ 0 then .error EXIT_FAILURE
  else if m.text ≠ (pfx ++ " started").toList then .error EXIT_FAILURE
  else .ok rest

/-
  Exit status plumbing (t3.c lines 759-765) and the POSIX wait status
  encoding the macros WIFEXITED and WEXITSTATUS decode: a normal exit
  with code c is encoded as (c & 0xff) << 8, a termination by signal s
  as s & 0x7f (nonzero); WIFEXITED(st) is (st & 0x7f) == 0 and
  WEXITSTATUS(st) is (st >> 8) & 0xff.
-/

/-- How the target command terminated. -/
inductive TermStatus where
  | exited (code : Nat)
  | signaled (sig : Nat)
deriving DecidableEq, Repr

/-- The wait status word waitpid stores for a termination. -/
def encode_wait_status : TermStatus → Nat
  | .exited c => 256 * (c % 256)
  | .signaled s => s % 128

/-- The return value of main at t3.c line 765:
WIFEXITED(status) ? WEXITSTATUS(status) : EXIT_FAILURE. -/
def t3_exit_code (status : Nat) : Nat :=
  if status % 128 = 0 then status / 256 % 256 else EXIT_FAILURE

/-
  The linked-list message queues (t3.c lines 79-90, push at 262-272,
  shift at 275-290).  Queue nodes live in a heap modelled as a function
  from addresses to optional nodes; push links a freshly allocated node
  after the tail, shift unlinks and frees the head node.
-/

/-- Heap addresses of queue nodes. -/
abbrev Addr := Nat

/-- Model of struct message (t3.c lines 79-82): the payload plus the
next pointer (none models NULL). -/
structure MsgNode where
  msg_payload : Payload
  next : Option Addr
deriving DecidableEq, Repr

/-- A heap of queue nodes; none models unallocated or freed memory. -/
def Heap : Type := Addr → Option MsgNode

/-- Heap update: write the given cell (or free it with none). -/
def hupdate (h : Heap) (a : Addr) (v : Option MsgNode) : Heap :=
  fun x => if x = a then v else h x

/-- The next field of the node at an address, if allocated. -/
def nextOf (h : Heap) (a : Addr) : Option (Option Addr) :=
  Option.map MsgNode.next (h a)

/-- The payload of the node at an address, if allocated. -/
def payloadAt (h : Heap) (a : Addr) : Option Payload :=
  Option.map MsgNode.msg_payload (h a)

/-- The state a queue's global variables and heap are in: head and
tail pointers (t3.c lines 85-90), the queuelen counter (a C int), and
the node heap. -/
structure QueueSt where
  head : Option Addr
  tail : Option Addr
  queuelen : Int
  heap : Heap

/-- push (t3.c lines 262-272): store the new node (with next = NULL)
at the fresh address a, link it after the tail (or make it both head
and tail of an empty queue), and increment queuelen.  The inner match
fallback covers a dangling tail, which a well-formed queue never
has. -/
def push (q : QueueSt) (a : Addr) (p : Payload) : QueueSt :=
  let h1 := hupdate q.heap a (some ⟨p, none⟩)
  match q.tail with
  | none =>
    { head := some a, tail := some a, queuelen := q.queuelen + 1, heap := h1 }
  | some t =>
    match h1 t with
    | some n =>
      { head := q.head, tail := some a, queuelen := q.queuelen + 1,
        heap := hupdate h1 t (some { n with next := some a }) }
    | none => { q with heap := h1 }

/-- shift (t3.c lines 275-290): a NULL head returns with no change;
otherwise the head advances to its next node, the tail is cleared when
the queue became empty, queuelen is decremented and the old head node
is freed.  The inner match fallback covers a dangling head, which a
well-formed queue never has. -/
def shift (q : QueueSt) : QueueSt :=
  match q.head with
  | none => q
  | some hA =>
    match q.heap hA with
    | none => q
    | some n =>
      { head := n.next,
        tail := if n.next = none then none else q.tail,
        queuelen := q.queuelen - 1,
        heap := hupdate q.heap hA none }

/-- The empty queue state all four queues start in: NULL head and
tail, zero queuelen, nothing allocated. -/
def emptyQ : QueueSt :=
  { head := none, tail := none, queuelen := 0, heap := fun _ => none }

/-- The addresses of a queue chained in order: each node points to the
next listed address and the last node has a NULL next pointer. -/
def chainFrom (h : Heap) : List Addr → Prop
  | [] => True
  | [a] => nextOf h a = some none
  | a :: b :: rest => nextOf h a = some (some b) ∧ chainFrom h (b :: rest)

/-- A queue state is well formed with node addresses addrs holding
payloads ps: head and tail point at the first and last listed address,
queuelen counts the nodes, the addresses are distinct and chained in
order through the heap, and the listed payloads are the node
payloads. -/
def reprQ (q : QueueSt) (addrs : List Addr) (ps : List Payload) : Prop :=
  q.head = addrs.head? ∧
  q.tail = addrs.getLast? ∧
  q.queuelen = (addrs.length : Int) ∧
  addrs.Nodup ∧
  chainFrom q.heap addrs ∧
  addrs.map (payloadAt q.heap) = ps.map some

/-- A queue operation: pushing a message or shifting the head off. -/
inductive QOp where
  | push (p : Payload)
  | shift
deriving DecidableEq, Repr

/-- Run of a sequence of queue operations against the C queue, with a
fresh-address counter modelling malloc always returning memory not
currently allocated. -/
def runOps : QueueSt → Addr → List QOp → QueueSt
  | q, _, [] => q
  | q, c, QOp.push p :: rest => runOps (push q c p) (c + 1) rest
  | q, _c, QOp.shift :: rest => runOps (shift q) _c rest

/-- The same operations run against a plain functional FIFO list:
push appends at the back, shift drops the front (and leaves an empty
list unchanged). -/
def modelRun : List Payload → List QOp → List Payload
  | ps, [] => ps
  | ps, QOp.push p :: rest => modelRun (ps ++ [p]) rest
  | ps, QOp.shift :: rest => modelRun ps.tail rest

/-- Invariant carried along a run of queue operations: the queue is
well formed for some address list whose members are all below the
allocation counter, and nothing at or above the counter is
allocated. -/
def invQ (q : QueueSt) (c : Addr) (ps : List Payload) : Prop :=
  ∃ addrs, reprQ q addrs ps ∧ (∀ x ∈ addrs, x < c) ∧ (∀ x, c ≤ x → q.heap x = none)

/-
  Theorems.  Helper lemmas come first, then one theorem per claim
  (with its witness or counterexample).
-/

/-- timespec_cmp is nonpositive exactly when the first timestamp is
earlier or the two are equal. -/
theorem timespec_cmp_nonpos {a b : Timespec} :
    timespec_cmp a b ≤ 0 ↔ (ts_earlier a b ∨ a = b) := by
  obtain ⟨as, an⟩ := a
  obtain ⟨bs, bn⟩ := b
  simp only [timespec_cmp, ts_earlier, Timespec.mk.injEq]
  split_ifs <;> omega

/-- timespec_cmp is positive exactly when the second timestamp is
earlier. -/
theorem timespec_cmp_pos {a b : Timespec} :
    0 < timespec_cmp a b ↔ ts_earlier b a := by
  obtain ⟨as, an⟩ := a
  obtain ⟨bs, bn⟩ := b
  simp only [timespec_cmp, ts_earlier]
  split_ifs <;> omega

/-- Unfolding of a successful readiness check: the ready message is
the queue head, and while any channel is open it satisfied the delay
window test. -/
theorem readyHead_eq_some {st : MergeState} {now : Timespec} {q : List Payload} {m : Payload}
    (h : readyHead st now q = some m) :
    q.head? = some m ∧ (0 < numOpenFds st → 100 ≤ timespec_ms_delta now m.timestamp) := by
  cases q with
  | nil => simp [readyHead] at h
  | cons m0 rest =>
    simp only [readyHead, List.head?] at h
    by_cases ho : 0 < numOpenFds st
    · rw [if_pos ho] at h
      by_cases hd : 100 ≤ timespec_ms_delta now m0.timestamp
      · rw [if_pos hd] at h
        injection h with h
        subst h
        exact ⟨rfl, fun _ => hd⟩
      · rw [if_neg hd] at h
        cases h
    · rw [if_neg ho] at h
      injection h with h
      subst h
      exact ⟨rfl, fun hc => absurd hc ho⟩

/-- A stdout release only happens with a ready stdout head. -/
theorem drainStep_releaseStdout {now : Timespec} {st : MergeState}
    (h : drainStep now st = DrainAction.releaseStdout) :
    ∃ m, readyHead st now st.stdoutQ = some m := by
  unfold drainStep at h
  cases h0 : readyHead st now st.stdoutQ with
  | some m => exact ⟨m, rfl⟩
  | none =>
    rw [h0] at h
    cases h1 : readyHead st now st.stderrQ <;> rw [h1] at h <;> simp at h

/-- A stderr release only happens with a ready stderr head. -/
theorem drainStep_releaseStderr {now : Timespec} {st : MergeState}
    (h : drainStep now st = DrainAction.releaseStderr) :
    ∃ m, readyHead st now st.stderrQ = some m := by
  unfold drainStep at h
  cases h1 : readyHead st now st.stderrQ with
  | some m => exact ⟨m, rfl⟩
  | none =>
    rw [h1] at h
    cases h0 : readyHead st now st.stdoutQ <;> rw [h0] at h <;> simp at h

/-- Removing a queue head does not change the open channel count. -/
theorem numOpenFds_set_stdoutQ (st : MergeState) (q : List Payload) :
    numOpenFds { st with stdoutQ := q } = numOpenFds st := rfl

/-- Removing a queue head does not change the open channel count. -/
theorem numOpenFds_set_stderrQ (st : MergeState) (q : List Payload) :
    numOpenFds { st with stderrQ := q } = numOpenFds st := rfl

/-- C1, counterexample.  The claim states that the head of a queue
whose channel is Closed is always eligible even while the other
channel is Open.  In the code the unconditional-release branch is
guarded by num_open_fds == 0, so with the stdout channel closed, the
stderr channel open and a fresh stdout head (age 0 ms), the stdout
head is not eligible and the drain stops. -/
theorem c1_counterexample :
    readyHead ⟨[⟨⟨0, 0⟩, []⟩], [], false, true⟩ ⟨0, 0⟩ [⟨⟨0, 0⟩, []⟩] = none ∧
    drainStep ⟨0, 0⟩ ⟨[⟨⟨0, 0⟩, []⟩], [], false, true⟩ = DrainAction.stop ∧
    MergeState.stdoutOpen ⟨[⟨⟨0, 0⟩, []⟩], [], false, true⟩ = false ∧
    MergeState.stderrOpen ⟨[⟨⟨0, 0⟩, []⟩], [], false, true⟩ = true := by
  decide

/-- C1, amended.  Heads become unconditionally eligible, irrespective
of how recently their timestamps were captured, only once both
channels are closed (num_open_fds == 0); while any channel is open
every head, including that of a closed channel, is subject to the
delay window. -/
theorem c1_closed_channels_release :
    ∀ (now : Timespec) (st : MergeState), numOpenFds st = 0 →
      (∀ m, st.stdoutQ.head? = some m → readyHead st now st.stdoutQ = some m) ∧
      (∀ m, st.stderrQ.head? = some m → readyHead st now st.stderrQ = some m) := by
  intro now st h
  constructor <;> intro m hm <;>
    cases hq : st.stdoutQ <;> cases hq2 : st.stderrQ <;>
      simp_all [readyHead, List.head?]

/-- C1 witness: with both channels closed a zero-age stdout head is
eligible at once. -/
theorem c1_closed_channels_release_witness :
    readyHead ⟨[⟨⟨9, 9⟩, []⟩], [], false, false⟩ ⟨9, 9⟩ [⟨⟨9, 9⟩, []⟩] = some ⟨⟨9, 9⟩, []⟩ :=
  (c1_closed_channels_release ⟨9, 9⟩ ⟨[⟨⟨9, 9⟩, []⟩], [], false, false⟩ (by decide)).1
    ⟨⟨9, 9⟩, []⟩ rfl

/-- C2, code bug.  send_msg_payload is meant to resume a short write
at the byte offset where it stopped, but the resume pointer
msg_payload + written advances written * sizeof(struct payload) bytes.
With a first write accepting 1 byte and a second accepting everything
requested, the second call is issued at byte offset 4112 instead of 1,
and the function returns as complete although the transmitted bytes
are not the envelope bytes [0, 4112) in order. -/
theorem c2_short_write_resume_bug :
    (send_msg_payload [WriteRes.ok 1, WriteRes.ok 4111]).calls = [(0, 4112), (4112, 4111)] ∧
    (send_msg_payload [WriteRes.ok 1, WriteRes.ok 4111]).sent = [(0, 1), (4112, 4111)] ∧
    (send_msg_payload [WriteRes.ok 1, WriteRes.ok 4111]).outcome = SendOutcome.completeExit ∧
    (4112, 4111) ≠ ((1 : Nat), (4111 : Nat)) := by
  decide

/-- C3, counterexample.  The claim states every message released from
an Open queue is at least 100 ms old.  With now = 1.000000000 s and a
head captured at 0.900000001 s the exact age is 99999999 ns, below
100 ms, yet the truncating millisecond delta is 100 and the message is
released while both channels are open. -/
theorem c3_counterexample :
    (drainPass ⟨1, 0⟩ 1 ⟨[⟨⟨0, 900000001⟩, []⟩], [], true, true⟩).1 =
      [(true, ⟨⟨0, 900000001⟩, []⟩)] ∧
    0 < numOpenFds ⟨[⟨⟨0, 900000001⟩, []⟩], [], true, true⟩ ∧
    age_ns ⟨1, 0⟩ ⟨0, 900000001⟩ < 100000000 := by
  decide

/-- C3, amended.  While any channel is open, every message released
by a drain pass satisfies timespec_ms_delta(now, timestamp) >= 100,
where now is the single current_time captured before the pass and the
delta is the integer millisecond value computed with C division
truncating toward zero; because of the truncation this does not bound
the exact age below by 100 ms. -/
theorem c3_open_release_needs_delay :
    ∀ (now : Timespec) (fuel : Nat) (st : MergeState), 0 < numOpenFds st →
      ∀ b m, (b, m) ∈ (drainPass now fuel st).1 →
        100 ≤ timespec_ms_delta now m.timestamp := by
  intro now fuel
  induction fuel with
  | zero =>
    intro st _ b m hm
    simp [drainPass] at hm
  | succ n ih =>
    intro st hopen b m hm
    rw [drainPass] at hm
    cases hstep : drainStep now st with
    | releaseStdout =>
      rw [hstep] at hm
      obtain ⟨m0, hr⟩ := drainStep_releaseStdout hstep
      obtain ⟨hhead, hdelay⟩ := readyHead_eq_some hr
      cases hq : st.stdoutQ with
      | nil => rw [hq] at hhead; cases hhead
      | cons m1 rest =>
        rw [hq] at hm hhead
        simp only [List.head?] at hhead
        injection hhead with hhead
        subst hhead
        simp only [List.mem_cons, Prod.mk.injEq] at hm
        rcases hm with ⟨_, hm⟩ | hm
        · subst hm; exact hdelay hopen
        · exact ih { st with stdoutQ := rest } hopen b m hm
    | releaseStderr =>
      rw [hstep] at hm
      obtain ⟨m0, hr⟩ := drainStep_releaseStderr hstep
      obtain ⟨hhead, hdelay⟩ := readyHead_eq_some hr
      cases hq : st.stderrQ with
      | nil => rw [hq] at hhead; cases hhead
      | cons m1 rest =>
        rw [hq] at hm hhead
        simp only [List.head?] at hhead
        injection hhead with hhead
        subst hhead
        simp only [List.mem_cons, Prod.mk.injEq] at hm
        rcases hm with ⟨_, hm⟩ | hm
        · subst hm; exact hdelay hopen
        · exact ih { st with stderrQ := rest } hopen b m hm
    | stop =>
      rw [hstep] at hm
      simp at hm

/-- C3 witness: an open-state release of a 10 s old message satisfies
the millisecond delta bound. -/
theorem c3_open_release_needs_delay_witness :
    100 ≤ timespec_ms_delta ⟨10, 0⟩ ⟨0, 0⟩ :=
  c3_open_release_needs_delay ⟨10, 0⟩ 1 ⟨[⟨⟨0, 0⟩, []⟩], [], true, true⟩ (by decide)
    true ⟨⟨0, 0⟩, []⟩ (by decide)

/-- C4.  When both heads are ready in a drain step, the strictly
earlier timestamp is released first and an exact tie goes to the
stdout side; a single ready head is released; with no ready head the
drain stops. -/
theorem c4_release_order :
    ∀ (now : Timespec) (st : MergeState),
      (∀ m0 m1, readyHead st now st.stdoutQ = some m0 →
          readyHead st now st.stderrQ = some m1 →
        ((ts_earlier m0.timestamp m1.timestamp ∨ m0.timestamp = m1.timestamp) →
            drainStep now st = DrainAction.releaseStdout) ∧
        (ts_earlier m1.timestamp m0.timestamp →
            drainStep now st = DrainAction.releaseStderr)) ∧
      (∀ m0, readyHead st now st.stdoutQ = some m0 → readyHead st now st.stderrQ = none →
          drainStep now st = DrainAction.releaseStdout) ∧
      (∀ m1, readyHead st now st.stdoutQ = none → readyHead st now st.stderrQ = some m1 →
          drainStep now st = DrainAction.releaseStderr) ∧
      (readyHead st now st.stdoutQ = none → readyHead st now st.stderrQ = none →
          drainStep now st = DrainAction.stop) := by
  intro now st
  refine ⟨?_, ?_, ?_, ?_⟩
  · intro m0 m1 h0 h1
    constructor
    · intro hle
      unfold drainStep
      rw [h0, h1]
      show (if timespec_cmp m0.timestamp m1.timestamp ≤ 0 then DrainAction.releaseStdout
        else DrainAction.releaseStderr) = DrainAction.releaseStdout
      rw [if_pos (timespec_cmp_nonpos.mpr hle)]
    · intro hlt
      unfold drainStep
      have hgt : ¬ timespec_cmp m0.timestamp m1.timestamp ≤ 0 := by
        have := timespec_cmp_pos.mpr hlt
        omega
      rw [h0, h1]
      show (if timespec_cmp m0.timestamp m1.timestamp ≤ 0 then DrainAction.releaseStdout
        else DrainAction.releaseStderr) = DrainAction.releaseStderr
      rw [if_neg hgt]
  · intro m0 h0 h1
    unfold drainStep
    rw [h0, h1]
  · intro m1 h0 h1
    unfold drainStep
    rw [h0, h1]
  · intro h0 h1
    unfold drainStep
    rw [h0, h1]

/-- C4 witness: an exact timestamp tie between two ready heads is
released on the stdout side. -/
theorem c4_release_order_witness :
    drainStep ⟨0, 0⟩ ⟨[⟨⟨1, 1⟩, ['a']⟩], [⟨⟨1, 1⟩, ['b']⟩], false, false⟩ =
      DrainAction.releaseStdout :=
  ((c4_release_order ⟨0, 0⟩ ⟨[⟨⟨1, 1⟩, ['a']⟩], [⟨⟨1, 1⟩, ['b']⟩], false, false⟩).1
    ⟨⟨1, 1⟩, ['a']⟩ ⟨⟨1, 1⟩, ['b']⟩ (by decide) (by decide)).1 (Or.inr rfl)

/-- C9.  The overall exit code equals the exit status of a target
command that exited normally, and is EXIT_FAILURE for any other
termination. -/
theorem c9_exit_status :
    (∀ c : Nat, c ≤ 255 → t3_exit_code (encode_wait_status (TermStatus.exited c)) = c) ∧
    (∀ s : Nat, s % 128 ≠ 0 →
        t3_exit_code (encode_wait_status (TermStatus.signaled s)) = EXIT_FAILURE) := by
  constructor
  · intro c hc
    simp only [t3_exit_code, encode_wait_status]
    have h1 : 256 * (c % 256) % 128 = 0 := by omega
    rw [if_pos h1]
    omega
  · intro s hs
    simp only [t3_exit_code, encode_wait_status]
    rw [if_neg (by omega)]

/-- C9 witness: a target command exiting with status 7 yields overall
exit code 7, and one killed by signal 9 yields EXIT_FAILURE. -/
theorem c9_exit_status_witness :
    t3_exit_code (encode_wait_status (TermStatus.exited 7)) = 7 ∧
    t3_exit_code (encode_wait_status (TermStatus.signaled 9)) = EXIT_FAILURE :=
  ⟨c9_exit_status.1 7 (by decide), c9_exit_status.2 9 (by decide)⟩

/-- The send loop never performs a process exit on any phase or
trace. -/
theorem sendStep_exited_none :
    ∀ (tr : List WriteRes) (ph : SPhase) (cs ss : List (Nat × Nat)),
      (sendStep tr ph cs ss).exited = none := by
  intro tr
  induction tr with
  | nil => intro ph cs ss; rfl
  | cons r rest ih =>
    intro ph cs ss
    cases ph <;> cases r <;>
      first
        | rfl
        | apply ih
        | · simp only [sendStep]
            split
            · rfl
            · apply ih

/-- C7, counterexample.  The claim states a non-EAGAIN write error is
fatal to the worker.  With the channel erroring the initial write of
the first line (silent return: the unsigned loop condition at t3.c
line 126 excludes -1, so no retry and no perror), erroring the resume
write of the second line (perror and break at lines 153-154), and
accepting the third line whole, the worker never exits and all three
lines are scanned and handed to send_msg_payload. -/
theorem c7_counterexample :
    (relay_run [(⟨5, 0⟩, ['a', NL, 'b', NL, 'c', NL])]
        [[WriteRes.err], [WriteRes.ok 1, WriteRes.err], [WriteRes.ok 4112]]).map
        (fun pr => (pr.1.text, pr.2.outcome, pr.2.logged, pr.2.exited)) =
      [(['a'], SendOutcome.silentNegReturn, false, none),
       (['b'], SendOutcome.errorBreak, true, none),
       (['c'], SendOutcome.completeExit, false, none)] := by
  decide

/-- C7, amended.  A write error other than EAGAIN is not fatal:
send_msg_payload returns on every trace without an exit and the
relaying loop hands it exactly the scanned messages, whatever the
channel does.  An error on the initial write is not even detected,
because the comparison written < sizeof at t3.c line 126 converts the
ssize_t -1 to SIZE_MAX: the function returns silently with no retry
and no log.  An error on a resume write inside the loop is logged
with perror and the rest of the message abandoned. -/
theorem c7_send_error_not_fatal :
    (∀ trace, (send_msg_payload trace).exited = none) ∧
    (∀ msgs trs, (sendAll msgs trs).map Prod.fst = msgs) ∧
    (∀ rest, (send_msg_payload (WriteRes.err :: rest)).outcome = SendOutcome.silentNegReturn ∧
        (send_msg_payload (WriteRes.err :: rest)).logged = false) ∧
    (∀ (n : Nat) (rest : List WriteRes), n < PAYLOAD_SIZE →
        (send_msg_payload (WriteRes.ok n :: WriteRes.err :: rest)).outcome =
          SendOutcome.errorBreak ∧
        (send_msg_payload (WriteRes.ok n :: WriteRes.err :: rest)).logged = true) := by
  refine ⟨?_, ?_, fun rest => ⟨rfl, rfl⟩, ?_⟩
  · intro trace
    cases trace with
    | nil => rfl
    | cons r rest =>
      cases r with
      | ok n =>
        simp only [send_msg_payload]
        split
        · rfl
        · exact sendStep_exited_none rest (SPhase.havePartial n) [(0, PAYLOAD_SIZE)] [(0, n)]
      | eagain => rfl
      | err => rfl
  · intro msgs
    induction msgs with
    | nil => intro trs; rfl
    | cons m ms ih =>
      intro trs
      simp only [sendAll, List.map_cons, ih]
  · intro n rest hn
    have hlt : ¬ (PAYLOAD_SIZE ≤ n) := Nat.not_le.mpr hn
    constructor <;> simp [send_msg_payload, sendStep, hlt]

/-- C7 witness: a resume write erroring after a 1-byte short write is
logged with perror and breaks the loop, with no exit. -/
theorem c7_send_error_not_fatal_witness :
    (send_msg_payload [WriteRes.ok 1, WriteRes.err]).outcome = SendOutcome.errorBreak ∧
    (send_msg_payload [WriteRes.ok 1, WriteRes.err]).logged = true :=
  c7_send_error_not_fatal.2.2.2 1 [] (by decide)

/-- C8, counterexample.  The claim states that failure to send the
sentinel causes the worker to exit non-zero.  A sentinel write failing
outright returns -1 (fewer bytes than the envelope), yet the check at
t3.c line 194 converts the ssize_t -1 to SIZE_MAX, the comparison is
false, and the worker continues into its read loop without exiting. -/
theorem c8_counterexample :
    worker_startup_check (-1) = none ∧ ((-1 : Int) < (PAYLOAD_SIZE : Int)) := by
  decide

/-- C8, amended.  The Readiness Sentinel has a zero timestamp and the
fixed text "<stream> started", and the worker sends it before any data
message; a partial sentinel write of 0 to sizeof-1 bytes makes the
worker exit EXIT_FAILURE, but a failed write returning -1 escapes the
unsigned comparison at t3.c line 194 and the worker continues without
exiting; the parent returns EXIT_FAILURE on a first message with
nonzero timestamp or unexpected text; and a successful handshake
consumes the sentinel, leaving only the data messages for the merge
loop, so the sentinel is never rendered. -/
theorem c8_sentinel_handshake :
    (∀ pfx, (sentinel_payload pfx).timestamp.sec = 0 ∧
      (sentinel_payload pfx).timestamp.nsec = 0 ∧
      (sentinel_payload pfx).text = (pfx ++ " started").toList) ∧
    (∀ pfx chunks, timestamp_and_send_output pfx chunks =
        sentinel_payload pfx :: timestamp_and_send_msgs chunks) ∧
    (∀ w : Int, 0 ≤ w → w < (PAYLOAD_SIZE : Int) →
        worker_startup_check w = some EXIT_FAILURE) ∧
    (∀ w : Int, -9223372036854775808 ≤ w → w < 0 → worker_startup_check w = none) ∧
    (∀ pfx (m : Payload) rest,
        (m.timestamp.sec ≠ 0 ∨ m.timestamp.nsec ≠ 0 ∨ m.text ≠ (pfx ++ " started").toList) →
        parent_handshake pfx m rest = Except.error EXIT_FAILURE) ∧
    (∀ pfx rest, parent_handshake pfx (sentinel_payload pfx) rest = Except.ok rest) := by
  refine ⟨fun pfx => ⟨rfl, rfl, rfl⟩, fun _ _ => rfl, ?_, ?_, ?_, ?_⟩
  · intro w h0 h1
    have hc : to_size_t w < PAYLOAD_SIZE := by
      unfold to_size_t
      simp only [PAYLOAD_SIZE] at h1 ⊢
      omega
    unfold worker_startup_check
    rw [if_pos hc]
  · intro w h0 h1
    have hc : ¬ (to_size_t w < PAYLOAD_SIZE) := by
      unfold to_size_t
      simp only [PAYLOAD_SIZE]
      omega
    unfold worker_startup_check
    rw [if_neg hc]
  · intro pfx m rest h
    unfold parent_handshake
    rcases h with h | h | h
    · rw [if_pos (Or.inl h)]
    · rw [if_pos (Or.inr h)]
    · by_cases hts : m.timestamp.sec ≠ 0 ∨ m.timestamp.nsec ≠ 0
      · rw [if_pos hts]
      · rw [if_neg hts, if_pos h]
  · intro pfx rest
    simp [parent_handshake, sentinel_payload]

/-- C8 witness: a zero-byte sentinel write exits the worker, a -1
error return does not, and the parent rejects a first message with a
nonzero timestamp but accepts the sentinel, consuming it. -/
theorem c8_sentinel_handshake_witness :
    worker_startup_check 0 = some EXIT_FAILURE ∧
    worker_startup_check (-1) = none ∧
    parent_handshake "stdout" ⟨⟨3, 0⟩, "stdout started".toList⟩ [] =
      Except.error EXIT_FAILURE ∧
    parent_handshake "stdout" (sentinel_payload "stdout") [] = Except.ok [] :=
  ⟨c8_sentinel_handshake.2.2.1 0 (by decide) (by decide),
   c8_sentinel_handshake.2.2.2.1 (-1) (by decide) (by decide),
   c8_sentinel_handshake.2.2.2.2.1 "stdout" ⟨⟨3, 0⟩, "stdout started".toList⟩ []
     (Or.inl (by decide)),
   c8_sentinel_handshake.2.2.2.2.2 "stdout" []⟩

theorem texts_append (a b : List Payload) : texts (a ++ b) = texts a ++ texts b :=
  List.map_append _ _ _

theorem scan_bytes_append (ts : Timespec) (xs ys : List Char) : ∀ acc,
    scan_bytes ts acc (xs ++ ys) =
      ((scan_bytes ts acc xs).1 ++ (scan_bytes ts (scan_bytes ts acc xs).2 ys).1,
       (scan_bytes ts (scan_bytes ts acc xs).2 ys).2) := by
  induction xs with
  | nil =>
    intro acc
    simp [scan_bytes]
  | cons b rest ih =>
    intro acc
    by_cases ht : BUFFER_SIZE - 1 ≤ acc.length <;>
      by_cases hb : b = NL <;>
        simp [scan_bytes, ht, hb, ih, List.append_assoc]

theorem texts_cons (p : Payload) (l : List Payload) :
    texts (p :: l) = p.text :: texts l := rfl

theorem scan_bytes_ts_irrel (ts ts2 : Timespec) (bs : List Char) : ∀ acc,
    texts (scan_bytes ts acc bs).1 = texts (scan_bytes ts2 acc bs).1 ∧
    (scan_bytes ts acc bs).2 = (scan_bytes ts2 acc bs).2 := by
  induction bs with
  | nil => intro acc; exact ⟨rfl, rfl⟩
  | cons b rest ih =>
    intro acc
    have h1 : ∀ a, texts (scan_bytes ts a rest).1 = texts (scan_bytes ts2 a rest).1 :=
      fun a => (ih a).1
    have h2 : ∀ a, (scan_bytes ts a rest).2 = (scan_bytes ts2 a rest).2 :=
      fun a => (ih a).2
    by_cases ht : BUFFER_SIZE - 1 ≤ acc.length <;>
      by_cases hb : b = NL <;>
        simp [scan_bytes, ht, hb, texts_append, texts_cons, h1, h2]

theorem scan_chunks_eq (chunks : List (Timespec × List Char)) : ∀ acc,
    texts (scan_chunks acc chunks).1 =
      texts (scan_bytes ⟨0, 0⟩ acc ((chunks.map Prod.snd).flatten)).1 ∧
    (scan_chunks acc chunks).2 =
      (scan_bytes ⟨0, 0⟩ acc ((chunks.map Prod.snd).flatten)).2 := by
  induction chunks with
  | nil => intro acc; simp [scan_chunks, scan_bytes]
  | cons c rest ih =>
    intro acc
    obtain ⟨ts, bs⟩ := c
    have h1 := scan_bytes_ts_irrel ts ⟨0, 0⟩ bs acc
    constructor
    · simp only [scan_chunks, List.map_cons, List.flatten_cons, scan_bytes_append, texts_append]
      rw [(ih _).1, h1.1, h1.2]
    · simp only [scan_chunks, List.map_cons, List.flatten_cons, scan_bytes_append]
      rw [(ih _).2, h1.2]

theorem scan_bytes_no_nl (ts : Timespec) (t : List Char) : ∀ acc, NL ∉ t →
    acc.length + t.length ≤ 4094 →
    scan_bytes ts acc t = ([], acc ++ t) := by
  induction t with
  | nil => intro acc _ _; simp [scan_bytes]
  | cons b rest ih =>
    intro acc hnl hlen
    have hb : ¬ b = NL := by
      intro h
      subst h
      exact hnl (List.mem_cons_self _ _)
    have hnl2 : NL ∉ rest := fun h => hnl (List.mem_cons_of_mem _ h)
    have ht : ¬ (BUFFER_SIZE - 1 ≤ acc.length) := by
      simp only [BUFFER_SIZE]
      simp only [List.length_cons] at hlen
      omega
    have hlen2 : (acc ++ [b]).length + rest.length ≤ 4094 := by
      simp only [List.length_append, List.length_cons, List.length_nil] at hlen ⊢
      omega
    simp [scan_bytes, ht, hb, ih (acc ++ [b]) hnl2 hlen2, List.append_assoc]

theorem scan_bytes_line (ts : Timespec) (l : List Char) (rest : List Char) : ∀ acc, NL ∉ l →
    acc.length + l.length ≤ 4094 →
    scan_bytes ts acc (l ++ NL :: rest) =
      ((⟨ts, acc ++ l⟩ : Payload) :: (scan_bytes ts [] rest).1, (scan_bytes ts [] rest).2) := by
  induction l with
  | nil =>
    intro acc _ hlen
    have ht : ¬ (BUFFER_SIZE - 1 ≤ acc.length) := by
      simp only [BUFFER_SIZE]
      omega
    simp [scan_bytes, ht]
  | cons b bs ih =>
    intro acc hnl hlen
    have hb : ¬ b = NL := by
      intro h
      subst h
      exact hnl (List.mem_cons_self _ _)
    have hnl2 : NL ∉ bs := fun h => hnl (List.mem_cons_of_mem _ h)
    have ht : ¬ (BUFFER_SIZE - 1 ≤ acc.length) := by
      simp only [BUFFER_SIZE]
      simp only [List.length_cons] at hlen
      omega
    have hlen2 : (acc ++ [b]).length + bs.length ≤ 4094 := by
      simp only [List.length_append, List.length_cons, List.length_nil] at hlen ⊢
      omega
    simp [scan_bytes, ht, hb, ih (acc ++ [b]) hnl2 hlen2, List.append_assoc]

theorem scan_bytes_lines (ts : Timespec) (ls : List (List Char)) (tl : List Char) :
    (∀ l ∈ ls, NL ∉ l ∧ l.length ≤ 4094) →
    scan_bytes ts [] (join_lines ls ++ tl) =
      (ls.map (fun l => (⟨ts, l⟩ : Payload)) ++ (scan_bytes ts [] tl).1,
       (scan_bytes ts [] tl).2) := by
  induction ls with
  | nil => intro _; simp [join_lines]
  | cons l ls ih =>
    intro h
    have h1 := h l (List.mem_cons_self _ _)
    have hrest : ∀ x ∈ ls, NL ∉ x ∧ x.length ≤ 4094 :=
      fun x hx => h x (List.mem_cons_of_mem _ hx)
    have hsplit : join_lines (l :: ls) ++ tl = l ++ NL :: (join_lines ls ++ tl) := by
      simp [join_lines]
    rw [hsplit, scan_bytes_line ts l (join_lines ls ++ tl) [] h1.1 (by simpa using h1.2),
      ih hrest]
    simp

theorem scan_bytes_count (ts : Timespec) (l : List Char) : ∀ acc, NL ∉ l →
    acc.length ≤ 4095 →
    ((scan_bytes ts acc (l ++ [NL])).1.length = (acc.length + l.length) / 4095 + 1 ∧
     (scan_bytes ts acc (l ++ [NL])).2 = []) := by
  induction l with
  | nil =>
    intro acc _ hacc
    by_cases ht : BUFFER_SIZE - 1 ≤ acc.length
    · refine ⟨?_, by simp [scan_bytes, ht]⟩
      have h4095 : acc.length = 4095 := by
        simp only [BUFFER_SIZE] at ht
        omega
      simp [scan_bytes, ht]
      omega
    · refine ⟨?_, by simp [scan_bytes, ht]⟩
      have h4094 : acc.length ≤ 4094 := by
        simp only [BUFFER_SIZE] at ht
        omega
      simp [scan_bytes, ht]
      omega
  | cons b bs ih =>
    intro acc hnl hacc
    have hb : ¬ b = NL := by
      intro h
      subst h
      exact hnl (List.mem_cons_self _ _)
    have hnl2 : NL ∉ bs := fun h => hnl (List.mem_cons_of_mem _ h)
    by_cases ht : BUFFER_SIZE - 1 ≤ acc.length
    · have h4095 : acc.length = 4095 := by
        simp only [BUFFER_SIZE] at ht
        omega
      obtain ⟨ihl, ihr⟩ := ih [b] hnl2 (by simp)
      refine ⟨?_, by simp [scan_bytes, ht, hb, ihr]⟩
      simp [scan_bytes, ht, hb, ihl]
      omega
    · have h4094 : acc.length ≤ 4094 := by
        simp only [BUFFER_SIZE] at ht
        omega
      obtain ⟨ihl, ihr⟩ := ih (acc ++ [b]) hnl2 (by simp; omega)
      refine ⟨?_, by simp [scan_bytes, ht, hb, ihr]⟩
      simp [scan_bytes, ht, hb, ihl]
      omega

theorem scan_bytes_concat (ts : Timespec) (bs : List Char) : ∀ acc,
    (texts (scan_bytes ts acc bs).1).flatten ++ (scan_bytes ts acc bs).2 =
      acc ++ bs.filter (fun c => c != NL) := by
  induction bs with
  | nil => intro acc; simp [scan_bytes, texts]
  | cons b rest ih =>
    intro acc
    by_cases ht : BUFFER_SIZE - 1 ≤ acc.length <;>
      by_cases hb : b = NL <;>
        simp [scan_bytes, ht, hb, texts_append, texts_cons, ih, List.filter_cons,
          List.append_assoc]

theorem scan_bytes_wf (ts : Timespec) (bs : List Char) : ∀ acc, NL ∉ acc →
    acc.length ≤ 4095 →
    ((∀ p ∈ (scan_bytes ts acc bs).1, NL ∉ p.text ∧ p.text.length ≤ 4095) ∧
     NL ∉ (scan_bytes ts acc bs).2 ∧ (scan_bytes ts acc bs).2.length ≤ 4095) := by
  induction bs with
  | nil =>
    intro acc h1 h2
    refine ⟨?_, by simpa [scan_bytes] using h1, by simpa [scan_bytes] using h2⟩
    intro p hp
    simp [scan_bytes] at hp
  | cons b rest ih =>
    intro acc h1 h2
    by_cases ht : BUFFER_SIZE - 1 ≤ acc.length <;> by_cases hb : b = NL
    · obtain ⟨ihp, ihn, ihl⟩ := ih [] (by simp) (by simp)
      refine ⟨?_, by simpa [scan_bytes, ht, hb] using ihn,
        by simpa [scan_bytes, ht, hb] using ihl⟩
      intro p hp
      simp [scan_bytes, ht, hb] at hp
      rcases hp with rfl | rfl | hp
      · exact ⟨h1, h2⟩
      · exact ⟨by simp, by simp⟩
      · exact ihp p hp
    · obtain ⟨ihp, ihn, ihl⟩ := ih [b] (by
        intro h
        rcases List.mem_singleton.mp h with h
        exact hb h.symm) (by simp)
      refine ⟨?_, by simpa [scan_bytes, ht, hb] using ihn,
        by simpa [scan_bytes, ht, hb] using ihl⟩
      intro p hp
      simp [scan_bytes, ht, hb] at hp
      rcases hp with rfl | hp
      · exact ⟨h1, h2⟩
      · exact ihp p hp
    · obtain ⟨ihp, ihn, ihl⟩ := ih [] (by simp) (by simp)
      refine ⟨?_, by simpa [scan_bytes, ht, hb] using ihn,
        by simpa [scan_bytes, ht, hb] using ihl⟩
      intro p hp
      simp [scan_bytes, ht, hb] at hp
      rcases hp with rfl | hp
      · exact ⟨h1, h2⟩
      · exact ihp p hp
    · have hnacc : NL ∉ acc ++ [b] := by
        intro h
        rcases List.mem_append.mp h with h | h
        · exact h1 h
        · exact hb (List.mem_singleton.mp h).symm
      have hlacc : (acc ++ [b]).length ≤ 4095 := by
        simp only [List.length_append, List.length_cons, List.length_nil]
        simp only [BUFFER_SIZE] at ht
        omega
      obtain ⟨ihp, ihn, ihl⟩ := ih (acc ++ [b]) hnacc hlacc
      refine ⟨?_, by simpa [scan_bytes, ht, hb] using ihn,
        by simpa [scan_bytes, ht, hb] using ihl⟩
      intro p hp
      simp [scan_bytes, ht, hb] at hp
      exact ihp p hp

theorem c6_message_invariants :
    ∀ chunks : List (Timespec × List Char),
      (∀ p ∈ timestamp_and_send_msgs chunks, NL ∉ p.text ∧ p.text.length ≤ 4095) ∧
      (texts (timestamp_and_send_msgs chunks)).flatten =
        ((chunks.map Prod.snd).flatten).filter (fun c => c != NL) := by
  intro chunks
  have heq := scan_chunks_eq chunks []
  have hwf := scan_bytes_wf ⟨0, 0⟩ ((chunks.map Prod.snd).flatten) [] (by simp) (by simp)
  have hcat := scan_bytes_concat ⟨0, 0⟩ ((chunks.map Prod.snd).flatten) []
  simp only [List.nil_append] at hcat
  have hchunkp : ∀ p ∈ (scan_chunks [] chunks).1, NL ∉ p.text ∧ p.text.length ≤ 4095 := by
    intro p hp
    have hmem : p.text ∈ texts (scan_chunks [] chunks).1 := List.mem_map_of_mem _ hp
    rw [heq.1] at hmem
    obtain ⟨q, hq, hqt⟩ := List.mem_map.mp hmem
    rw [← hqt]
    exact hwf.1 q hq
  constructor
  · intro p hp
    simp only [timestamp_and_send_msgs] at hp
    by_cases hrem : (scan_chunks [] chunks).2 = []
    · rw [if_pos hrem] at hp
      exact hchunkp p hp
    · rw [if_neg hrem] at hp
      rcases List.mem_append.mp hp with hp | hp
      · exact hchunkp p hp
      · rcases List.mem_singleton.mp hp with rfl
        refine ⟨?_, ?_⟩
        · show NL ∉ (scan_chunks [] chunks).2
          rw [heq.2]
          exact hwf.2.1
        · show (scan_chunks [] chunks).2.length ≤ 4095
          rw [heq.2]
          exact hwf.2.2
  · simp only [timestamp_and_send_msgs]
    by_cases hrem : (scan_chunks [] chunks).2 = []
    · rw [if_pos hrem]
      rw [heq.1]
      have : (scan_bytes ⟨0, 0⟩ [] ((chunks.map Prod.snd).flatten)).2 = [] := by
        rw [← heq.2]
        exact hrem
      rw [this, List.append_nil] at hcat
      exact hcat
    · rw [if_neg hrem]
      rw [texts_append, List.flatten_append, heq.1]
      have htail : texts [(⟨last_ts chunks, (scan_chunks [] chunks).2⟩ : Payload)] =
          [(scan_chunks [] chunks).2] := rfl
      rw [htail]
      simp only [List.flatten_cons, List.flatten_nil, List.append_nil]
      rw [heq.2, hcat]

theorem c6_message_invariants_witness :
    NL ∉ Payload.text ⟨⟨5, 0⟩, ['a']⟩ ∧ (Payload.text ⟨⟨5, 0⟩, ['a']⟩).length ≤ 4095 :=
  (c6_message_invariants [(⟨5, 0⟩, ['a', NL])]).1 ⟨⟨5, 0⟩, ['a']⟩ (by decide)

theorem c5_line_round_trip :
    (∀ (chunks : List (Timespec × List Char)) (ls : List (List Char)) (tl : List Char),
        (chunks.map Prod.snd).flatten = join_lines ls ++ tl →
        (∀ l ∈ ls, NL ∉ l ∧ l.length ≤ 4094) →
        NL ∉ tl → tl.length ≤ 4094 →
        texts (timestamp_and_send_msgs chunks) = ls ++ (if tl = [] then [] else [tl])) ∧
    (∀ (ts : Timespec) (l : List Char), NL ∉ l →
        ((scan_bytes ts [] (l ++ [NL])).1.length = l.length / 4095 + 1 ∧
         (texts (scan_bytes ts [] (l ++ [NL])).1).flatten = l)) := by
  constructor
  · intro chunks ls tl hflat hls htl1 htl2
    have heq := scan_chunks_eq chunks []
    have htlscan : scan_bytes ⟨0, 0⟩ [] tl = ([], tl) :=
      scan_bytes_no_nl ⟨0, 0⟩ tl [] htl1 (by simpa using htl2)
    have hbytes : scan_bytes ⟨0, 0⟩ [] ((chunks.map Prod.snd).flatten) =
        (ls.map (fun l => (⟨⟨0, 0⟩, l⟩ : Payload)), tl) := by
      rw [hflat, scan_bytes_lines ⟨0, 0⟩ ls tl hls, htlscan]
      simp
    have h1 : texts (scan_chunks [] chunks).1 = ls := by
      rw [heq.1, hbytes]
      simp only [texts, List.map_map]
      have hfun : (Payload.text ∘ fun l => (⟨⟨0, 0⟩, l⟩ : Payload)) = id := rfl
      rw [hfun, List.map_id]
    have h2 : (scan_chunks [] chunks).2 = tl := by
      rw [heq.2, hbytes]
    simp only [timestamp_and_send_msgs]
    by_cases htl0 : tl = []
    · rw [if_pos (by rw [h2, htl0])]
      rw [h1, if_pos htl0, List.append_nil]
    · rw [if_neg (by rw [h2]; exact htl0)]
      rw [texts_append, h1, if_neg htl0]
      have : texts [(⟨last_ts chunks, (scan_chunks [] chunks).2⟩ : Payload)] =
          [(scan_chunks [] chunks).2] := rfl
      rw [this, h2]
  · intro ts l hnl
    obtain ⟨hc, hr⟩ := scan_bytes_count ts l [] hnl (by simp)
    refine ⟨by simpa using hc, ?_⟩
    have hcat := scan_bytes_concat ts (l ++ [NL]) []
    rw [hr, List.append_nil, List.nil_append] at hcat
    rw [hcat, List.filter_append]
    have hfl : l.filter (fun c => c != NL) = l := by
      rw [List.filter_eq_self]
      intro a ha
      simp only [bne_iff_ne, ne_eq]
      intro h
      exact hnl (h ▸ ha)
    rw [hfl]
    simp

theorem c5_line_round_trip_witness :
    texts (timestamp_and_send_msgs [(⟨1, 0⟩, ['a', NL])]) = [['a']] ∧
    (scan_bytes ⟨0, 0⟩ [] (['b'] ++ [NL])).1.length = 1 := by
  constructor
  · have h := c5_line_round_trip.1 [(⟨1, 0⟩, ['a', NL])] [['a']] []
      (by decide) (by decide) (by decide) (by decide)
    simpa using h
  · have h := (c5_line_round_trip.2 ⟨0, 0⟩ ['b'] (by decide)).1
    simpa using h

theorem getLast?_mem_self {α : Type} {l : List α} {t : α} (h : l.getLast? = some t) :
    t ∈ l := by
  obtain ⟨hne, heq⟩ := List.mem_getLast?_eq_getLast (Option.mem_def.mpr h)
  rw [heq]
  exact List.getLast_mem hne

theorem hupdate_self (h : Heap) (a : Addr) (v : Option MsgNode) : hupdate h a v a = v := by
  simp [hupdate]

theorem hupdate_ne (h : Heap) {a x : Addr} (v : Option MsgNode) (hx : x ≠ a) :
    hupdate h a v x = h x := by
  simp [hupdate, hx]

theorem nextOf_update_ne (h : Heap) {a x : Addr} (v : Option MsgNode) (hx : x ≠ a) :
    nextOf (hupdate h a v) x = nextOf h x := by
  simp [nextOf, hupdate, hx]

theorem payloadAt_update_ne (h : Heap) {a x : Addr} (v : Option MsgNode) (hx : x ≠ a) :
    payloadAt (hupdate h a v) x = payloadAt h x := by
  simp [payloadAt, hupdate, hx]

theorem nextOf_some {h : Heap} {x : Addr} {v : Option Addr} (hx : nextOf h x = some v) :
    ∃ n, h x = some n ∧ n.next = v := by
  cases hn : h x with
  | none => simp [nextOf, hn] at hx
  | some n =>
    unfold nextOf at hx
    rw [hn] at hx
    simp at hx
    exact ⟨n, rfl, hx⟩

theorem chainFrom_mem {h : Heap} :
    ∀ {l : List Addr}, chainFrom h l → ∀ x ∈ l, ∃ n, h x = some n := by
  intro l
  induction l with
  | nil => intro _ x hx; cases hx
  | cons a rest ih =>
    intro hc x hx
    cases rest with
    | nil =>
      rcases List.mem_singleton.mp hx with rfl
      simp only [chainFrom] at hc
      obtain ⟨n, hn, _⟩ := nextOf_some hc
      exact ⟨n, hn⟩
    | cons b rest2 =>
      simp only [chainFrom] at hc
      rcases List.mem_cons.mp hx with rfl | hx2
      · obtain ⟨n, hn, _⟩ := nextOf_some hc.1
        exact ⟨n, hn⟩
      · exact ih hc.2 x hx2

theorem chainFrom_update_not_mem {h : Heap} {a : Addr} {v : Option MsgNode} :
    ∀ {l : List Addr}, a ∉ l → chainFrom h l → chainFrom (hupdate h a v) l := by
  intro l
  induction l with
  | nil => intro _ _; trivial
  | cons x rest ih =>
    intro ha hc
    have hxa : x ≠ a := fun he => ha (he ▸ List.mem_cons_self _ _)
    cases rest with
    | nil =>
      simp only [chainFrom] at hc ⊢
      rw [nextOf_update_ne h v hxa]
      exact hc
    | cons y rest2 =>
      simp only [chainFrom] at hc ⊢
      exact ⟨by rw [nextOf_update_ne h v hxa]; exact hc.1,
        ih (fun hm => ha (List.mem_cons_of_mem _ hm)) hc.2⟩

theorem map_payloadAt_update_not_mem {h : Heap} {a : Addr} {v : Option MsgNode}
    {l : List Addr} (ha : a ∉ l) :
    l.map (payloadAt (hupdate h a v)) = l.map (payloadAt h) :=
  List.map_congr_left fun _x hx => payloadAt_update_ne h v (fun he => ha (he ▸ hx))

theorem chainFrom_snoc {h : Heap} {p : Payload} :
    ∀ (l : List Addr) (t : Addr) (nt : MsgNode) (a : Addr),
      chainFrom h l → l.getLast? = some t → l.Nodup → a ∉ l → h t = some nt →
      chainFrom (hupdate (hupdate h a (some ⟨p, none⟩)) t
        (some ⟨nt.msg_payload, some a⟩)) (l ++ [a]) := by
  intro l
  induction l with
  | nil =>
    intro t nt a _ hlast _ _ _
    simp at hlast
  | cons x rest ih =>
    intro t nt a hc hlast hnd ha hht
    cases rest with
    | nil =>
      have hxt : x = t := by simpa using hlast
      subst hxt
      have hax : a ≠ x := fun he => ha (he ▸ List.mem_cons_self _ _)
      simp only [List.cons_append, List.nil_append, chainFrom]
      constructor
      · rw [nextOf, hupdate_self]
        rfl
      · rw [nextOf, hupdate_ne _ _ hax, hupdate_self]
        rfl
    | cons y rest2 =>
      have hlast2 : (y :: rest2).getLast? = some t := by
        rw [← List.getLast?_cons_cons]
        exact hlast
      have htmem : t ∈ y :: rest2 := getLast?_mem_self hlast2
      have hxt : x ≠ t := fun he => (List.nodup_cons.mp hnd).1 (he ▸ htmem)
      have hxa : x ≠ a := fun he => ha (he ▸ List.mem_cons_self _ _)
      simp only [chainFrom] at hc
      simp only [List.cons_append, chainFrom]
      constructor
      · rw [nextOf_update_ne _ _ hxt, nextOf_update_ne _ _ hxa]
        exact hc.1
      · have hgoal := ih t nt a hc.2 hlast2 (List.Nodup.of_cons hnd)
          (fun hm => ha (List.mem_cons_of_mem _ hm)) hht
        simpa using hgoal

theorem push_repr {q : QueueSt} {addrs : List Addr} {ps : List Payload} {a : Addr} {p : Payload}
    (hr : reprQ q addrs ps) (hfresh : q.heap a = none) :
    reprQ (push q a p) (addrs ++ [a]) (ps ++ [p]) := by
  obtain ⟨hh, ht, hlen, hnd, hch, hmap⟩ := hr
  have hnotmem : a ∉ addrs := by
    intro hmem
    obtain ⟨n, hn⟩ := chainFrom_mem hch a hmem
    rw [hfresh] at hn
    cases hn
  cases htail : q.tail with
  | none =>
    have haddrs : addrs = [] := by
      rw [htail] at ht
      exact List.getLast?_eq_none_iff.mp ht.symm
    subst haddrs
    have hps : ps = [] := by
      cases ps with
      | nil => rfl
      | cons p0 ps2 => simp at hmap
    subst hps
    have hpush : push q a p =
        { head := some a, tail := some a, queuelen := q.queuelen + 1,
          heap := hupdate q.heap a (some ⟨p, none⟩) } := by
      simp only [push, htail]
    rw [hpush]
    unfold reprQ
    refine ⟨by simp, by simp, ?_, by simp, ?_, ?_⟩
    · simp only [List.length_nil, Nat.cast_zero] at hlen
      simp [hlen]
    · simp only [List.nil_append, chainFrom, nextOf, hupdate_self]
      rfl
    · simp [payloadAt, hupdate_self]
  | some t =>
    have hts : addrs.getLast? = some t := by rw [← ht, htail]
    have htmem : t ∈ addrs := getLast?_mem_self hts
    obtain ⟨nt, hnt⟩ := chainFrom_mem hch t htmem
    have hta : t ≠ a := by
      intro he
      rw [he, hfresh] at hnt
      cases hnt
    have h1t : hupdate q.heap a (some ⟨p, none⟩) t = some nt := by
      rw [hupdate_ne _ _ hta]
      exact hnt
    have hpush : push q a p =
        { head := q.head, tail := some a, queuelen := q.queuelen + 1,
          heap := hupdate (hupdate q.heap a (some ⟨p, none⟩)) t
            (some { nt with next := some a }) } := by
      simp only [push, htail, h1t]
    rw [hpush]
    unfold reprQ
    refine ⟨?_, ?_, ?_, ?_, ?_, ?_⟩
    · show q.head = (addrs ++ [a]).head?
      rw [hh]
      cases addrs with
      | nil => simp at hts
      | cons x xs => simp
    · show (some a : Option Addr) = (addrs ++ [a]).getLast?
      rw [List.getLast?_concat]
    · show q.queuelen + 1 = ((addrs ++ [a]).length : Int)
      rw [hlen]
      simp only [List.length_append, List.length_cons, List.length_nil]
      push_cast
      ring
    · show (addrs ++ [a]).Nodup
      rw [List.nodup_append]
      refine ⟨hnd, by simp, ?_⟩
      intro x hx
      simp only [List.mem_singleton]
      intro he
      exact hnotmem (he ▸ hx)
    · exact chainFrom_snoc addrs t nt a hch hts hnd hnotmem hnt
    · show (addrs ++ [a]).map
          (payloadAt (hupdate (hupdate q.heap a (some ⟨p, none⟩)) t
            (some { nt with next := some a }))) = (ps ++ [p]).map some
      rw [List.map_append, List.map_append]
      have hmap2 : addrs.map (payloadAt (hupdate (hupdate q.heap a (some ⟨p, none⟩)) t
          (some { nt with next := some a }))) = addrs.map (payloadAt q.heap) := by
        apply List.map_congr_left
        intro x hx
        by_cases hxt : x = t
        · subst hxt
          rw [payloadAt, hupdate_self, payloadAt, hnt]
          rfl
        · have hxa : x ≠ a := fun he => hnotmem (he ▸ hx)
          rw [payloadAt_update_ne _ _ hxt, payloadAt_update_ne _ _ hxa]
      rw [hmap2, hmap]
      congr 1
      simp only [List.map_cons, List.map_nil]
      rw [payloadAt, hupdate_ne _ _ (Ne.symm hta), hupdate_self]
      rfl

theorem shift_repr {q : QueueSt} {addrs : List Addr} {ps : List Payload}
    (hr : reprQ q addrs ps) : reprQ (shift q) addrs.tail ps.tail := by
  obtain ⟨hh, ht, hlen, hnd, hch, hmap⟩ := hr
  cases addrs with
  | nil =>
    have hps : ps = [] := by
      cases ps with
      | nil => rfl
      | cons p0 ps2 => simp at hmap
    subst hps
    have hh0 : q.head = none := by simpa using hh
    unfold shift
    rw [hh0]
    exact ⟨hh, ht, hlen, hnd, hch, hmap⟩
  | cons hA rest =>
    have hh1 : q.head = some hA := by simpa using hh
    obtain ⟨n, hn⟩ := chainFrom_mem hch hA (List.mem_cons_self _ _)
    have hnext : n.next = rest.head? := by
      cases rest with
      | nil =>
        simp only [chainFrom] at hch
        obtain ⟨n2, hn2, hnx⟩ := nextOf_some hch
        rw [hn] at hn2
        injection hn2 with hn2
        rw [hn2, hnx]
        rfl
      | cons b rest2 =>
        simp only [chainFrom] at hch
        obtain ⟨n2, hn2, hnx⟩ := nextOf_some hch.1
        rw [hn] at hn2
        injection hn2 with hn2
        rw [hn2, hnx]
        rfl
    have hAnotrest : hA ∉ rest := (List.nodup_cons.mp hnd).1
    have hch2 : chainFrom q.heap rest := by
      cases rest with
      | nil => trivial
      | cons b rest2 =>
        simp only [chainFrom] at hch
        exact hch.2
    have hshift : shift q =
        { head := n.next, tail := if n.next = none then none else q.tail,
          queuelen := q.queuelen - 1, heap := hupdate q.heap hA none } := by
      simp only [shift, hh1, hn]
    rw [hshift]
    unfold reprQ
    refine ⟨?_, ?_, ?_, ?_, ?_, ?_⟩
    · show n.next = (hA :: rest).tail.head?
      simpa using hnext
    · show (if n.next = none then none else q.tail) = (hA :: rest).tail.getLast?
      cases hrest : rest with
      | nil =>
        rw [hrest] at hnext
        simp only [List.head?] at hnext
        rw [if_pos hnext]
        simp
      | cons b rest2 =>
        rw [hrest] at hnext
        simp only [List.head?] at hnext
        rw [if_neg (by rw [hnext]; exact Option.some_ne_none b)]
        rw [ht, hrest]
        simp [List.getLast?_cons_cons]
    · show q.queuelen - 1 = ((hA :: rest).tail.length : Int)
      rw [hlen]
      simp only [List.length_cons, List.tail_cons]
      push_cast
      ring
    · show (hA :: rest).tail.Nodup
      simpa using List.Nodup.of_cons hnd
    · show chainFrom (hupdate q.heap hA none) (hA :: rest).tail
      simp only [List.tail_cons]
      exact chainFrom_update_not_mem hAnotrest hch2
    · show (hA :: rest).tail.map (payloadAt (hupdate q.heap hA none)) = ps.tail.map some
      cases ps with
      | nil => simp at hmap
      | cons p0 ps2 =>
        simp only [List.map_cons] at hmap
        injection hmap with h1 h2
        simp only [List.tail_cons]
        rw [map_payloadAt_update_not_mem hAnotrest]
        exact h2

theorem push_heap_out {q : QueueSt} {a : Addr} {p : Payload} {x : Addr}
    (hx1 : x ≠ a) (hx2 : q.tail ≠ some x) : (push q a p).heap x = q.heap x := by
  cases htail : q.tail with
  | none =>
    have hpush : (push q a p).heap = hupdate q.heap a (some ⟨p, none⟩) := by
      simp only [push, htail]
    rw [hpush]
    exact hupdate_ne _ _ hx1
  | some t =>
    have hxt : x ≠ t := fun he => hx2 (by rw [htail, he])
    cases hmatch : hupdate q.heap a (some ⟨p, none⟩) t with
    | some n =>
      have hpush : (push q a p).heap =
          hupdate (hupdate q.heap a (some ⟨p, none⟩)) t (some { n with next := some a }) := by
        simp only [push, htail, hmatch]
      rw [hpush, hupdate_ne _ _ hxt, hupdate_ne _ _ hx1]
    | none =>
      have hpush : (push q a p).heap = hupdate q.heap a (some ⟨p, none⟩) := by
        simp only [push, htail, hmatch]
      rw [hpush]
      exact hupdate_ne _ _ hx1

theorem shift_heap_none {q : QueueSt} {x : Addr} (h : q.heap x = none) :
    (shift q).heap x = none := by
  cases hh : q.head with
  | none =>
    have hs : shift q = q := by simp only [shift, hh]
    rw [hs]
    exact h
  | some hA =>
    cases hn : q.heap hA with
    | none =>
      have hs : shift q = q := by simp only [shift, hh, hn]
      rw [hs]
      exact h
    | some n =>
      have hs : (shift q).heap = hupdate q.heap hA none := by
        simp only [shift, hh, hn]
      rw [hs]
      unfold hupdate
      split
      · rfl
      · exact h

theorem runOps_inv : ∀ (ops : List QOp) (q : QueueSt) (c : Addr) (ps : List Payload),
    invQ q c ps → ∃ c2, invQ (runOps q c ops) c2 (modelRun ps ops) := by
  intro ops
  induction ops with
  | nil => intro q c ps h; exact ⟨c, h⟩
  | cons op rest ih =>
    intro q c ps h
    obtain ⟨addrs, hrep, hlt, hnone⟩ := h
    cases op with
    | push p =>
      show ∃ c2, invQ (runOps (push q c p) (c + 1) rest) c2 (modelRun (ps ++ [p]) rest)
      refine ih (push q c p) (c + 1) (ps ++ [p])
        ⟨addrs ++ [c], push_repr hrep (hnone c le_rfl), ?_, ?_⟩
      · intro x hx
        rcases List.mem_append.mp hx with hx | hx
        · exact Nat.lt_succ_of_lt (hlt x hx)
        · rcases List.mem_singleton.mp hx with rfl
          exact Nat.lt_succ_self _
      · intro x hx
        have hx1 : x ≠ c := Nat.ne_of_gt hx
        have hx2 : q.tail ≠ some x := by
          intro he
          have hxmem : x ∈ addrs := getLast?_mem_self (by rw [← hrep.2.1]; exact he)
          exact Nat.lt_asymm (hlt x hxmem) hx
        rw [push_heap_out hx1 hx2]
        exact hnone x (Nat.le_of_succ_le hx)
    | shift =>
      show ∃ c2, invQ (runOps (shift q) c rest) c2 (modelRun ps.tail rest)
      refine ih (shift q) c ps.tail ⟨addrs.tail, shift_repr hrep, ?_, ?_⟩
      · intro x hx
        exact hlt x (List.mem_of_mem_tail hx)
      · intro x hx
        exact shift_heap_none (hnone x hx)

/-- C10.  The push and shift operations of t3.c preserve a well-formed
FIFO queue: any sequence of operations starting from the empty queue
leaves a well-formed queue holding exactly the payloads of the
functional FIFO model (push appends at the tail, shift removes exactly
the head); push and shift preserve well-formedness individually; in a
well-formed queue the head pointer is NULL exactly when the tail
pointer is; and shift on an empty queue changes nothing. -/
theorem c10_queue_fifo :
    (∀ ops : List QOp, ∃ addrs, reprQ (runOps emptyQ 0 ops) addrs (modelRun [] ops)) ∧
    (∀ (q : QueueSt) (addrs : List Addr) (ps : List Payload) (a : Addr) (p : Payload),
        reprQ q addrs ps → q.heap a = none →
        reprQ (push q a p) (addrs ++ [a]) (ps ++ [p])) ∧
    (∀ (q : QueueSt) (addrs : List Addr) (ps : List Payload),
        reprQ q addrs ps → reprQ (shift q) addrs.tail ps.tail) ∧
    (∀ (q : QueueSt) (addrs : List Addr) (ps : List Payload),
        reprQ q addrs ps → (q.head = none ↔ q.tail = none)) ∧
    (∀ q : QueueSt, q.head = none → shift q = q) := by
  refine ⟨?_, fun q addrs ps a p hr hf => push_repr hr hf,
    fun q addrs ps hr => shift_repr hr, ?_, ?_⟩
  · intro ops
    have hinv : invQ emptyQ 0 [] := by
      refine ⟨[], ⟨rfl, rfl, rfl, List.nodup_nil, trivial, rfl⟩, ?_, fun x _ => rfl⟩
      intro x hx
      cases hx
    obtain ⟨c2, addrs, hr, _⟩ := runOps_inv ops emptyQ 0 [] hinv
    exact ⟨addrs, hr⟩
  · intro q addrs ps hr
    rw [hr.1, hr.2.1]
    rw [List.head?_eq_none_iff, List.getLast?_eq_none_iff]
  · intro q hq
    simp only [shift, hq]

/-- C10 witness: pushing one payload onto the empty queue at the fresh
address 0 yields a well-formed one-node queue holding it. -/
theorem c10_queue_fifo_witness :
    reprQ (push emptyQ 0 ⟨⟨1, 2⟩, ['a']⟩) [0] [⟨⟨1, 2⟩, ['a']⟩] := by
  have h := c10_queue_fifo.2.1 emptyQ [] [] 0 ⟨⟨1, 2⟩, ['a']⟩
    ⟨rfl, rfl, rfl, List.nodup_nil, trivial, rfl⟩ rfl
  simpa using h

end T3
